import Mathlib

/-!
Verification of the kdl-go document-tree library (package `kdl`).

This file gives a shallow embedding of the tree/value core of the package:
the `Value` union, the `Node`/`Document` structures and their builder
operations (node.go, document.go), the generic accessor/mutator helpers
(helpers.go), the event-stream tree builder (parser.go: `ParseDocument`,
`nextNode`, `accept`, `next`), the tree flattener (emitter.go:
`EmitDocument`, `emitNode`), and the batch marshal helpers
(`MarshalNodes`, `UnmarshalAll`).

Modelling conventions:
* Go `int64` / `*big.Int` payloads are modelled as `Int` (with explicit
  64-bit range checks where the code performs them); `float64` /
  `*big.Float` payloads are never inspected by any operation modelled
  here, so they are carried as opaque `Nat` bit patterns.
* Go's `map[string]Value` is modelled as an association list used only
  through `mapLookup` / `mapInsert`, which have exactly the Go map
  lookup/overwrite semantics.  Go map iteration order is never used by
  the code (it always iterates `PropertyOrder`), so the representation
  order is irrelevant.
* The `Parent` back-pointer of `Node` is a non-owning traversal aid that
  no modelled operation reads; it is omitted from the value tree.
* Fallible Go functions return `Except`/`Option`; a Go runtime panic
  (nil dereference, index out of range) is a distinguished outcome where
  a claim depends on it (`GoResult.panic`).
* Errors built with `errors.New`/`fmt.Errorf` are strings; the helper
  layer errors distinguish wrapping of `ErrNotFound` (`fmt.Errorf`
  with `%w`), which is what `errors.Is(err, ErrNotFound)` observes.
-/

namespace Kdl

/-- The KDL value union (document.go): Go variants `String`, `Integer`,
`Float`, `BigInt`, `BigFloat`, `Boolean`, `Null`, each carrying an
optional type-annotation string. -/
inductive Value where
  | str (typeAnnot : Option String) (value : String)
  | integer (typeAnnot : Option String) (value : Int)
  | float (typeAnnot : Option String) (bits : Nat)
  | bigInt (typeAnnot : Option String) (value : Int)
  | bigFloat (typeAnnot : Option String) (bits : Nat)
  | boolean (typeAnnot : Option String) (value : Bool)
  | null (typeAnnot : Option String)
deriving DecidableEq, Repr

/-- Association-list model of Go `map[string]Value` lookup `m[k]`. -/
def mapLookup : List (String × Value) → String → Option Value
  | [], _ => none
  | (k', v') :: rest, k => if k' = k then some v' else mapLookup rest k

/-- Association-list model of Go `map[string]Value` assignment
`m[k] = v`: overwrite if present, otherwise add. -/
def mapInsert : List (String × Value) → String → Value → List (String × Value)
  | [], k, v => [(k, v)]
  | (k', v') :: rest, k, v =>
    if k' = k then (k, v) :: rest else (k', v') :: mapInsert rest k v

theorem mapLookup_insert_self (m : List (String × Value)) (k : String) (v : Value) :
    mapLookup (mapInsert m k v) k = some v := by
  induction m with
  | nil => simp [mapInsert, mapLookup]
  | cons p rest ih =>
    by_cases h : p.1 = k
    · simp [mapInsert, h, mapLookup]
    · simp [mapInsert, h, mapLookup, ih]

theorem mapLookup_insert_ne (m : List (String × Value)) (k k' : String) (v : Value)
    (h : k ≠ k') : mapLookup (mapInsert m k v) k' = mapLookup m k' := by
  induction m with
  | nil => simp [mapInsert, mapLookup, h]
  | cons p rest ih =>
    by_cases hp : p.1 = k
    · simp [mapInsert, hp, mapLookup, h]
    · simp [mapInsert, hp, mapLookup, ih]

theorem mapInsert_of_absent (m : List (String × Value)) (k : String) (v : Value)
    (h : mapLookup m k = none) : mapInsert m k v = m ++ [(k, v)] := by
  induction m with
  | nil => simp [mapInsert]
  | cons p rest ih =>
    by_cases hp : p.1 = k
    · simp [mapLookup, hp] at h
    · simp [mapLookup, hp] at h
      simp [mapInsert, hp, ih h]

theorem mapLookup_append_left {m₁ : List (String × Value)} (m₂ : List (String × Value))
    {k : String} {v : Value} (h : mapLookup m₁ k = some v) :
    mapLookup (m₁ ++ m₂) k = some v := by
  induction m₁ with
  | nil => simp [mapLookup] at h
  | cons p rest ih =>
    by_cases hp : p.1 = k
    · simp [mapLookup, hp] at h ⊢; exact h
    · simp [mapLookup, hp] at h ⊢; exact ih h

theorem mapLookup_append_right {m₁ : List (String × Value)} (m₂ : List (String × Value))
    {k : String} (h : mapLookup m₁ k = none) :
    mapLookup (m₁ ++ m₂) k = mapLookup m₂ k := by
  induction m₁ with
  | nil => simp
  | cons p rest ih =>
    by_cases hp : p.1 = k
    · simp [mapLookup, hp] at h
    · simp [mapLookup, hp] at h ⊢; exact ih h

/-- Lookup in a list of pairs built by tagging each key of `ks` with `f k`. -/
theorem mapLookup_map_pair (ks : List String) (f : String → Value) (k : String) :
    mapLookup (ks.map fun k' => (k', f k')) k =
      if k ∈ ks then some (f k) else none := by
  induction ks with
  | nil => simp [mapLookup]
  | cons x xs ih =>
    by_cases hx : x = k
    · subst hx; simp [mapLookup]
    · simp [mapLookup, hx, ih, Ne.symm hx]

/-! ### Byte-order string comparison and lexicographic key sort

Go's `slices.Sort` on `[]string` orders strings byte-wise; on valid
UTF-8 this coincides with code-point order, modelled here on the
character lists. -/

def charsLe : List Char → List Char → Bool
  | [], _ => true
  | _ :: _, [] => false
  | a :: as, b :: bs =>
    if a.toNat = b.toNat then charsLe as bs else decide (a.toNat < b.toNat)

def strLe (a b : String) : Bool := charsLe a.data b.data

/-- Model of `slices.Sort(node.PropertyOrder)`'s resulting order: strings
contain no duplicates that could distinguish sort algorithms (equal
strings are identical), so any sorted permutation is the same list. -/
def sortKeys (l : List String) : List String :=
  l.insertionSort (fun a b => strLe a b = true)

theorem charsLe_total (a b : List Char) : charsLe a b = true ∨ charsLe b a = true := by
  induction a generalizing b with
  | nil => left; simp [charsLe]
  | cons x xs ih =>
    cases b with
    | nil => right; simp [charsLe]
    | cons y ys =>
      simp only [charsLe]
      by_cases e : x.toNat = y.toNat
      · rw [if_pos e, if_pos e.symm]
        exact ih ys
      · rw [if_neg e, if_neg (fun h => e h.symm), decide_eq_true_eq, decide_eq_true_eq]
        omega

theorem charsLe_trans {a b c : List Char} (h1 : charsLe a b = true) (h2 : charsLe b c = true) :
    charsLe a c = true := by
  induction a generalizing b c with
  | nil => simp [charsLe]
  | cons x xs ih =>
    cases b with
    | nil => simp [charsLe] at h1
    | cons y ys =>
      cases c with
      | nil => simp [charsLe] at h2
      | cons z zs =>
        simp only [charsLe] at h1 h2 ⊢
        by_cases e1 : x.toNat = y.toNat
        · rw [if_pos e1] at h1
          by_cases e2 : y.toNat = z.toNat
          · rw [if_pos e2] at h2
            rw [if_pos (e1.trans e2)]
            exact ih h1 h2
          · rw [if_neg e2, decide_eq_true_eq] at h2
            rw [if_neg (show x.toNat ≠ z.toNat by omega), decide_eq_true_eq]
            omega
        · rw [if_neg e1, decide_eq_true_eq] at h1
          by_cases e2 : y.toNat = z.toNat
          · rw [if_neg (show x.toNat ≠ z.toNat by omega), decide_eq_true_eq]
            omega
          · rw [if_neg e2, decide_eq_true_eq] at h2
            rw [if_neg (show x.toNat ≠ z.toNat by omega), decide_eq_true_eq]
            omega

instance : IsTotal String (fun a b => strLe a b = true) :=
  ⟨fun a b => charsLe_total a.data b.data⟩

instance : IsTrans String (fun a b => strLe a b = true) :=
  ⟨fun _ _ _ h1 h2 => charsLe_trans h1 h2⟩

theorem sortKeys_sorted (l : List String) :
    (sortKeys l).Sorted (fun a b => strLe a b = true) :=
  List.sorted_insertionSort _ l

theorem sortKeys_idem (l : List String) : sortKeys (sortKeys l) = sortKeys l :=
  List.Sorted.insertionSort_eq (sortKeys_sorted l)

theorem sortKeys_perm (l : List String) : (sortKeys l).Perm l :=
  List.perm_insertionSort _ l

theorem sortKeys_nodup {l : List String} (h : l.Nodup) : (sortKeys l).Nodup :=
  ((sortKeys_perm l).nodup_iff).mpr h

theorem sortKeys_mem {l : List String} {k : String} : k ∈ sortKeys l ↔ k ∈ l :=
  (sortKeys_perm l).mem_iff

/-! ### The document tree (node.go, document.go) -/

/-- A KDL node (node.go).  Fields follow the Go struct: `Name`,
`TypeAnnotation` (here `TypeAnnot`), `Arguments`, `Properties`,
`PropertyOrder`, `Children`, and the single emitter hint
`Hints.EmitEmptyChildren` (here `EmitEmptyChildren`).  The non-owning
`Parent` back-pointer is omitted (see header). -/
inductive Node where
  | mk (Name : String) (TypeAnnot : Option String) (Arguments : List Value)
      (Properties : List (String × Value)) (PropertyOrder : List String)
      (Children : List Node) (EmitEmptyChildren : Bool)

def Node.Name : Node → String
  | .mk n _ _ _ _ _ _ => n

def Node.TypeAnnot : Node → Option String
  | .mk _ t _ _ _ _ _ => t

def Node.Arguments : Node → List Value
  | .mk _ _ a _ _ _ _ => a

def Node.Properties : Node → List (String × Value)
  | .mk _ _ _ p _ _ _ => p

def Node.PropertyOrder : Node → List String
  | .mk _ _ _ _ o _ _ => o

def Node.Children : Node → List Node
  | .mk _ _ _ _ _ c _ => c

def Node.EmitEmptyChildren : Node → Bool
  | .mk _ _ _ _ _ _ e => e

/-- `NewNode` (node.go): a fresh node with the given name and empty
arguments, properties, property order and children. -/
def NewNode (name : String) : Node :=
  .mk name none [] [] [] [] false

/-- `Node.AddArgument` (node.go). -/
def Node.AddArgument : Node → Value → Node
  | .mk n t a p o c e, v => .mk n t (a ++ [v]) p o c e

/-- `Node.AddProperty` (node.go): append `key` to `PropertyOrder` only
when not already present (`slices.Contains`), then set
`Properties[key] = value`. -/
def Node.AddProperty : Node → String → Value → Node
  | .mk n t a p o c e, key, value =>
    .mk n t a (mapInsert p key value)
      (if key ∈ o then o else o ++ [key]) c e

/-- `Node.AddChild` (node.go). -/
def Node.AddChild : Node → Node → Node
  | .mk n t a p o c e, child => .mk n t a p o (c ++ [child]) e

/-- `Node.GetChild` (node.go): first child with the given name, or nil. -/
def Node.GetChild (n : Node) (name : String) : Option Node :=
  n.Children.find? (fun c => c.Name = name)

/-- A document (document.go): an ordered list of top-level nodes. -/
structure Document where
  Nodes : List Node

/-! ### Accessor / mutator helpers (helpers.go) -/

/-- Helper-layer error model.  `notFound msg` stands for an error built
by `fmt.Errorf("...: %w", ..., ErrNotFound)`, i.e. one satisfying
`errors.Is(err, ErrNotFound)`; `plain msg` stands for any error that
does not wrap `ErrNotFound`. -/
inductive HErr where
  | notFound (msg : String)
  | plain (msg : String)
deriving DecidableEq, Repr

/-- `errors.Is(err, ErrNotFound)` on a helper-layer error. -/
def HErr.isNotFound : HErr → Bool
  | .notFound _ => true
  | .plain _ => false

/-- Outcome of a Go call that can also panic (used where the claims
distinguish panics from returned errors). -/
inductive GoResult (R : Type) where
  | ok (r : R)
  | err (e : HErr)
  | panic (msg : String)
deriving DecidableEq, Repr

/-- `Get` (helpers.go) at a string key: look the key up in
`node.Properties`, apply `fn` on success, and return a wrapped
`ErrNotFound` when the property is absent.  The nil-node guard returns
a plain error.  (This is the `case string` arm of the generic `Get`;
the claims do not exercise the integer arm.) -/
def Get {R : Type} (node : Option Node) (key : String)
    (fn : Value → Except HErr R) : Except HErr R :=
  match node with
  | none => .error (.plain "node is nil")
  | some n =>
    match mapLookup n.Properties key with
    | some val => fn val
    | none => .error (.notFound ("property " ++ key))

/-- `Set` (helpers.go) at an integer key (its `case int` arm): a
negative index is rejected before any mutation; an index at or past the
current length first extends `Arguments` with KDL nulls up to the index
and then writes.  The returned pair is (error, node after the call),
capturing that the Go function mutates `node` in place. -/
def Set (node : Node) (key : Int) (value : Value) : Option HErr × Node :=
  if key < 0 then
    (some (.plain ("invalid argument index " ++ toString key)), node)
  else
    let k := key.toNat
    let args := node.Arguments
    let extended :=
      if args.length ≤ k then args ++ List.replicate (k + 1 - args.length) (Value.null none)
      else args
    (none, .mk node.Name node.TypeAnnot (extended.set k value) node.Properties
      node.PropertyOrder node.Children node.EmitEmptyChildren)

/-- The `for _, child := range node.Children` loop of `GetKV`. -/
def GetKVloop {R : Type} (name : String) (fn : Value → Except HErr R) :
    List Node → GoResult R
  | [] => .err (.notFound ("child " ++ name))
  | c :: cs =>
    if c.Name = name then
      match c.Arguments with
      | [] => .panic "runtime error: index out of range [0] with length 0"
      | v :: _ =>
        match fn v with
        | .ok r => .ok r
        | .error e => .err e
    else GetKVloop name fn cs

/-- `GetKV` (helpers.go): find the first child with the given name and
apply `fn` to its first argument; `child.Arguments[0]` is an unchecked
index, so a matching child with no arguments is a runtime panic. -/
def GetKV {R : Type} (node : Option Node) (name : String)
    (fn : Value → Except HErr R) : GoResult R :=
  match node with
  | none => .err (.plain "node is nil")
  | some n => GetKVloop name fn n.Children

/-- `AsString` (helpers.go). -/
def AsString : Value → Except HErr String
  | .str _ v => .ok v
  | _ => .error (.plain "value is not a string")

/-- Signed 64-bit range used by `big.Int.IsInt64`. -/
def int64Min : Int := -(2 ^ 63)

def int64Max : Int := 2 ^ 63 - 1

/-- `AsInt64` (helpers.go): an `Integer` is returned directly; a
`BigInt` is range-checked with `IsInt64` and rejected when it does not
fit; other variants are a kind mismatch. -/
def AsInt64 : Value → Except HErr Int
  | .integer _ v => .ok v
  | .bigInt _ v =>
    if int64Min ≤ v ∧ v ≤ int64Max then .ok v
    else .error (.plain "big.Int value cannot be represented as int64")
  | _ => .error (.plain "value is not an integer")

/-- `AsBigInt` (helpers.go): exact on `BigInt`, widening on `Integer`,
kind mismatch otherwise. -/
def AsBigInt : Value → Except HErr Int
  | .bigInt _ v => .ok v
  | .integer _ v => .ok v
  | _ => .error (.plain "value is not a big.Int")

/-! ### Batch marshal / unmarshal (marshal file: `MarshalNodes`,
`UnmarshalAll`) -/

/-- `Document.MarshalNodes`: convert each item in order with its
`MarshalKDL` (here the explicit function `marshal`), appending each
converted node to `d.Nodes` as it goes, and stop at the first
conversion error.  The returned pair is (error, document after the
call): nodes converted before a failure remain appended.  (The Go
capacity pre-reservation has no value-level effect.) -/
def MarshalNodes {α : Type} (d : Document) (marshal : α → Except String Node) :
    List α → Option String × Document
  | [] => (none, d)
  | x :: xs =>
    match marshal x with
    | .error e => (some e, d)
    | .ok n => MarshalNodes ⟨d.Nodes ++ [n]⟩ marshal xs

/-- `UnmarshalAll`: build one record per node via `UnmarshalKDL` (here
`unmarshal`), returning the first error with no partial output. -/
def UnmarshalAll {α : Type} (unmarshal : Node → Except String α) :
    List Node → Except String (List α) :=
  go []
where
  go (acc : List α) : List Node → Except String (List α)
    | [] => .ok acc
    | n :: ns =>
      match unmarshal n with
      | .error e => .error e
      | .ok a => go (acc ++ [a]) ns

/-! ### Event grammar (parser side) and sink tokens (emitter side) -/

/-- A parser event (parser.go `kdlEvent`, the Go view of ckdl's
`kdl_event_data`): start-node / argument / property / end-node / eof /
parse-error, carrying the name and value fields the code reads. -/
inductive Event where
  | startNode (name : String) (value : Value)
  | argument (value : Value)
  | property (name : String) (value : Value)
  | endNode
  | eof
  | parseError
deriving DecidableEq, Repr

/-- The event discriminator compared by `accept` (`C.kdl_event`). -/
inductive EventType where
  | startNode
  | argument
  | property
  | endNode
  | eof
  | parseError
deriving DecidableEq, Repr

def Event.type : Event → EventType
  | .startNode _ _ => .startNode
  | .argument _ => .argument
  | .property _ _ => .property
  | .endNode => .endNode
  | .eof => .eof
  | .parseError => .parseError

/-- A ckdl emitter write (emitter.go): `kdl_emit_node` (with or without
type), `kdl_emit_arg`, `kdl_emit_property`,
`kdl_start_emitting_children` / `kdl_finish_emitting_children`, and the
document-final `kdl_emit_end`. -/
inductive Token where
  | nodeStart (name : String) (typeAnnot : Option String)
  | arg (value : Value)
  | prop (name : String) (value : Value)
  | childrenStart
  | childrenEnd
  | docEnd
deriving DecidableEq, Repr

/-- Go `node.Properties[k]` in emission position.  A key present in
`PropertyOrder` but absent from the map would be a nil `Value` in Go
(crashing the emitter); the default here is never reached on
well-formed nodes. -/
def lookupD (m : List (String × Value)) (k : String) : Value :=
  (mapLookup m k).getD (Value.null none)

/-! ### The flattener (emitter.go) -/

mutual

/-- `emitNode` (emitter.go) as a function on the value tree: the
sequence of ckdl sink writes together with the node as it stands after
the call.  The source sorts `node.PropertyOrder` in place
(`slices.Sort`) before iterating it, emits arguments in their stored
order, emits a children block only when `len(node.Children) > 0` — the
`Hints.EmitEmptyChildren` field is not consulted anywhere in
emitter.go — and recurses into the children, mutating them likewise. -/
def emitNode : Node → List Token × Node
  | .mk name ty args props porder children ee =>
    let sorted := sortKeys porder
    let cr := emitNodes children
    ([Token.nodeStart name ty]
       ++ args.map Token.arg
       ++ sorted.map (fun k => Token.prop k (lookupD props k))
       ++ (if children.length > 0 then
             [Token.childrenStart] ++ cr.1 ++ [Token.childrenEnd]
           else []),
     .mk name ty args props sorted cr.2 ee)

def emitNodes : List Node → List Token × List Node
  | [] => ([], [])
  | c :: cs =>
    let r := emitNode c
    let rs := emitNodes cs
    (r.1 ++ rs.1, r.2 :: rs.2)

end

/-- `EmitDocument` (emitter.go): emit every top-level node, then
`kdl_emit_end`.  Again paired with the document as mutated. -/
def EmitDocument (d : Document) : List Token × Document :=
  let r := emitNodes d.Nodes
  (r.1 ++ [Token.docEnd], ⟨r.2⟩)

mutual

/-- The pure description of what emission does to the tree: every
node's `PropertyOrder` is replaced by its lexicographically sorted
version, and every other field (name, type annotation, arguments,
properties, hints, the child list structure) is kept. -/
def sortTree : Node → Node
  | .mk name ty args props porder children ee =>
    .mk name ty args props (sortKeys porder) (sortTreeList children) ee

def sortTreeList : List Node → List Node
  | [] => []
  | c :: cs => sortTree c :: sortTreeList cs

end

mutual

/-- The flattener's output mapped onto the event grammar consumed by
the tree builder: `emitNode`'s writes correspond one-to-one (node start
→ `startNode` carrying the type annotation on a KDL null, as the event
source delivers it; argument and property writes → `argument` /
`property` events in the same order, properties in sorted key order),
and the children brackets / implicit node terminators of the external
text layer become the `endNode` event closing each node. -/
def flattenNode : Node → List Event
  | .mk name ty args props porder children _ =>
    [Event.startNode name (Value.null ty)]
      ++ args.map Event.argument
      ++ (sortKeys porder).map (fun k => Event.property k (lookupD props k))
      ++ flattenNodes children
      ++ [Event.endNode]

def flattenNodes : List Node → List Event
  | [] => []
  | c :: cs => flattenNode c ++ flattenNodes cs

end

/-- A flattened document: every top-level node's events, then the
end-of-input event the source reports after the document-final
`kdl_emit_end`. -/
def flattenDoc (d : Document) : List Event :=
  flattenNodes d.Nodes ++ [Event.eof]

/-! ### The tree builder (parser.go) -/

/-- Parser state: the single-event lookahead `p.ev` and the remaining
events the source will deliver. -/
structure PState where
  ev : Option Event
  rest : List Event
deriving DecidableEq, Repr

/-- `Parser.next` (parser.go): error when the current event is a parse
error; keep returning the same state once EOF is the current event;
otherwise pull the next event from the source (an exhausted source
models `kdl_parser_next_event` returning nil), failing on a
source-reported parse error without storing it. -/
def pnext (s : PState) : Except String PState :=
  match s.ev with
  | some e =>
    if e.type = EventType.parseError then .error "parse error already reached"
    else if e.type = EventType.eof then .ok s
    else pull s.rest
  | none => pull s.rest
where
  pull : List Event → Except String PState
    | [] => .error "no event data"
    | e :: rest =>
      if e.type = EventType.parseError then .error "ckdl parse error"
      else .ok ⟨some e, rest⟩

/-- `Parser.accept` (parser.go).  The Go function's deferred
`_, err = p.next()` assigns to the named result `err` on every return
path, so the error `accept` returns is always the one from advancing
the parser: the "expected X, got Y" mismatch error is overwritten, and
a mismatch surfaces only as a nil matched event. -/
def accept (t : EventType) (s : PState) : Except String (Option Event × PState) :=
  let matched : Option Event :=
    match s.ev with
    | none => none
    | some e => if e.type = t then some e else none
  match pnext s with
  | .error err => .error err
  | .ok s' => .ok (matched, s')

/-- The argument/property collection loop of `nextNode` (parser.go):
one loop with two guarded continue-branches, so argument and property
events may interleave.  A property event overwrites `Properties[name]`
and appends the name to `PropertyOrder` only when the key was not
already present.  `fuel` decreases every iteration; `ParseDocument`
supplies more fuel than any finite stream can consume. -/
def argPropLoop : Nat → PState → List Value → List (String × Value) → List String →
    Except String (List Value × List (String × Value) × List String × PState)
  | 0, _, _, _, _ => .error "out of fuel"
  | fuel + 1, s, args, props, porder =>
    match s.ev with
    | some (.argument v) =>
      match accept .argument s with
      | .error e => .error e
      | .ok (_, s') => argPropLoop fuel s' (args ++ [v]) props porder
    | some (.property k v) =>
      match accept .property s with
      | .error e => .error e
      | .ok (_, s') =>
        argPropLoop fuel s' args (mapInsert props k v)
          (if (mapLookup props k).isSome then porder else porder ++ [k])
    | _ => .ok (args, props, porder, s)

mutual

/-- `nextNode` (parser.go), minus the `Parent` pointer: accept the node
start (only a KDL null value may carry the type annotation), collect
arguments and properties, collect children, and accept the node end.
The built node has `Hints` at its zero value.  The nil-event arm after
`accept` models the Go nil-pointer dereference of `start.Name`; it is
unreachable because both callers only invoke `nextNode` while the
current event is a node start. -/
def nextNode : Nat → PState → Except String (Node × PState)
  | 0, _ => .error "out of fuel"
  | fuel + 1, s =>
    match accept .startNode s with
    | .error e => .error e
    | .ok (startEv, s1) =>
      match startEv with
      | some (.startNode name value) =>
        match value with
        | .null ty =>
          match argPropLoop fuel s1 [] [] [] with
          | .error e => .error e
          | .ok (args, props, porder, s2) =>
            match childLoop fuel s2 [] with
            | .error e => .error e
            | .ok (children, s3) =>
              match accept .endNode s3 with
              | .error e => .error e
              | .ok (_, s4) => .ok (.mk name ty args props porder children false, s4)
        | _ => .error "invalid type annotation"
      | _ => .error "panic: nil pointer dereference"

/-- The node-collection loop shared by `nextNode`'s children phase and
`ParseDocument`'s top level (parser.go): repeatedly build nodes while
the current event is a node start.  The only difference between the two
source loops is the `Parent` pointer, which the model omits. -/
def childLoop : Nat → PState → List Node → Except String (List Node × PState)
  | 0, _, _ => .error "out of fuel"
  | fuel + 1, s, acc =>
    match s.ev with
    | some (.startNode _ _) =>
      match nextNode fuel s with
      | .error e => .error e
      | .ok (n, s') => childLoop fuel s' (acc ++ [n])
    | _ => .ok (acc, s)

end

/-- `ParseDocument` (parser.go): prime the lookahead (discarding the
error exactly as the source does — a still-nil current event is then
reported as "no event data"), collect top-level nodes while the current
event is a node start, and accept EOF.  The fuel strictly exceeds what
any run over a finite stream can consume: fuel drops by at most two per
event the run consumes, and a run that stops consuming events stops. -/
def ParseDocument (events : List Event) : Except String Document :=
  match pnext ⟨none, events⟩ with
  | .error _ => .error "no event data"
  | .ok s =>
    match childLoop (2 * events.length + 4) s [] with
    | .error e => .error e
    | .ok (nodes, s') =>
      match accept .eof s' with
      | .error e => .error e
      | .ok _ => .ok ⟨nodes⟩

/-! ### Well-formed trees, canonical forms, and parse-state helpers -/

/-- No duplicates in a key list (decidable, executable). -/
def nodupB : List String → Bool
  | [] => true
  | k :: ks => (!ks.contains k) && nodupB ks

mutual

/-- Well-formed tree: `PropertyOrder` has no duplicates and is exactly
the key set of `Properties` (the invariant stated in the spec's data
model, and the premise of the round-trip property), recursively. -/
def wfB : Node → Bool
  | .mk _ _ _ props porder children _ =>
    nodupB porder
      && porder.all (fun k => (mapLookup props k).isSome)
      && (props.map Prod.fst).all (fun k => porder.contains k)
      && wfList children

def wfList : List Node → Bool
  | [] => true
  | c :: cs => wfB c && wfList cs

end

mutual

/-- The tree the builder reconstructs from a flattened well-formed
node: same name, type annotation and arguments; properties rebuilt in
sorted key order; `PropertyOrder` canonicalized to sorted order;
children canonicalized recursively; hints at their zero value. -/
def canon : Node → Node
  | .mk name ty args props porder children _ =>
    .mk name ty args
      ((sortKeys porder).map (fun k => (k, lookupD props k)))
      (sortKeys porder) (canonList children) false

def canonList : List Node → List Node
  | [] => []
  | c :: cs => canon c :: canonList cs

end

/-- The property-map/property-order state evolution performed by the
builder's property branch, one event at a time. -/
def propFold (props : List (String × Value)) (porder : List String) :
    List (String × Value) → List (String × Value) × List String
  | [] => (props, porder)
  | (k, v) :: rest =>
    propFold (mapInsert props k v)
      (if (mapLookup props k).isSome then porder else porder ++ [k]) rest

/-- The parser state positioned at the head of an event list. -/
def atList : List Event → PState
  | [] => ⟨none, []⟩
  | e :: rest => ⟨some e, rest⟩

/-- The head of `l` (if any) is not of type `ty`. -/
def headNe (ty : EventType) (l : List Event) : Prop :=
  ∀ e, l.head? = some e → e.type ≠ ty

/-- Equality of trees up to property order: same name, type annotation,
argument sequence and property set (pointwise map lookup), with the
left tree's property order the sorted version of the right one's, and
children related pointwise. -/
inductive NodeEquiv : Node → Node → Prop where
  | mk {name : String} {ty : Option String} {args : List Value}
      {props props' : List (String × Value)} {porder' : List String}
      {children children' : List Node} {ee ee' : Bool} :
      (∀ k, mapLookup props k = mapLookup props' k) →
      List.Forall₂ NodeEquiv children children' →
      NodeEquiv (.mk name ty args props (sortKeys porder') children ee)
        (.mk name ty args props' porder' children' ee')

/-! ### Tree induction -/

theorem Node.strongInduction {P : Node → Prop}
    (ih : ∀ n : Node, (∀ c ∈ n.Children, P c) → P n) (n : Node) : P n :=
  ih n (fun c hc => Node.strongInduction ih c)
termination_by sizeOf n
decreasing_by
  cases n with
  | mk name ty args props porder children ee =>
    simp only [Node.Children] at hc
    have := List.sizeOf_lt_of_mem hc
    simp only [Node.mk.sizeOf_spec]
    omega

/-! ### Emission as tree mutation (claims about frame effects) -/

theorem emitNode_snd (n : Node) : (emitNode n).2 = sortTree n := by
  induction n using Node.strongInduction with
  | ih n hchildren =>
    cases n with
    | mk name ty args props porder children ee =>
      simp only [Node.Children] at hchildren
      simp only [emitNode, sortTree]
      have hlist : ∀ cs : List Node, (∀ c ∈ cs, (emitNode c).2 = sortTree c) →
          (emitNodes cs).2 = sortTreeList cs := by
        intro cs hcs
        induction cs with
        | nil => simp [emitNodes, sortTreeList]
        | cons c cs ihcs =>
          simp only [emitNodes, sortTreeList]
          rw [hcs c (by simp), ihcs (fun c hc => hcs c (by simp [hc]))]
      rw [hlist children hchildren]

theorem emitNodes_snd (cs : List Node) : (emitNodes cs).2 = sortTreeList cs := by
  induction cs with
  | nil => rfl
  | cons c cs ih => simp [emitNodes, sortTreeList, emitNode_snd, ih]

theorem set_append_of_length_le {α : Type} (l₁ l₂ : List α) (i : Nat) (a : α)
    (h : l₁.length ≤ i) : (l₁ ++ l₂).set i a = l₁ ++ l₂.set (i - l₁.length) a := by
  induction l₁ generalizing i with
  | nil => simp
  | cons x xs ih =>
    cases i with
    | zero => simp at h
    | succ j =>
      simp only [List.cons_append, List.set, List.length_cons, List.append_eq]
      rw [ih j (by simpa using h)]
      have hsub : j + 1 - (xs.length + 1) = j - xs.length := by omega
      rw [hsub]

/-! ### Claim theorems -/

/-- C2: building a node from two `Property` events for the same key
`x`, with one value then another, yields `Properties[x]` holding the
second value and `PropertyOrder == [x]` — the key appears once, at the
position of its first occurrence — both through the event-stream
builder (`ParseDocument`/`nextNode`) and through `Node.AddProperty`. -/
theorem c2_duplicate_property_last_wins (name x : String) (v₁ v₂ : Value) :
    (ParseDocument
        [.startNode name (.null none), .property x v₁, .property x v₂, .endNode, .eof]
        = .ok ⟨[Node.mk name none [] [(x, v₂)] [x] [] false]⟩ ∧
      mapLookup [(x, v₂)] x = some v₂) ∧
    (mapLookup (((NewNode name).AddProperty x v₁).AddProperty x v₂).Properties x
        = some v₂ ∧
      (((NewNode name).AddProperty x v₁).AddProperty x v₂).PropertyOrder = [x]) := by
  constructor
  · constructor
    · simp [ParseDocument, pnext, pnext.pull, accept, childLoop, nextNode, argPropLoop,
        Event.type, mapInsert, mapLookup]
    · simp [mapLookup]
  · constructor
    · simp [NewNode, Node.AddProperty, Node.Properties, mapInsert, mapLookup]
    · simp [NewNode, Node.AddProperty, Node.PropertyOrder, mapLookup]

/-- C3: the claim says an event stream whose open node is never closed
by `EndNode` makes `ParseDocument` fail structurally with no partial
tree.  The code does not do this: `accept`'s deferred
`_, err = p.next()` overwrites the named return `err`, so the
"expected end_node, got eof" mismatch is discarded whenever advancing
succeeds (and it always succeeds on EOF).  On the stream
`[StartNode "a", Eof]` — node "a" is opened and never closed —
`ParseDocument` returns a complete one-node document and no error. -/
theorem c3_missing_endnode_still_accepted :
    ParseDocument [.startNode "a" (.null none), .eof]
      = .ok ⟨[Node.mk "a" none [] [] [] [] false]⟩ := by
  simp [ParseDocument, pnext, pnext.pull, accept, childLoop, nextNode, argPropLoop,
    Event.type]

/-- C4: the claim says a node with empty children and the
`EmitEmptyChildren` hint set gets an explicit children-start /
children-end pair.  The emitter never reads `Hints`: on the node
`{Name: "a", Children: [], Hints.EmitEmptyChildren: true}` exactly one
write (the node start) is produced and no children block appears. -/
theorem c4_empty_children_hint_ignored :
    (Node.mk "a" none [] [] [] [] true).EmitEmptyChildren = true ∧
    (Node.mk "a" none [] [] [] [] true).Children = [] ∧
    (emitNode (Node.mk "a" none [] [] [] [] true)).1 = [Token.nodeStart "a" none] ∧
    Token.childrenStart ∉ (emitNode (Node.mk "a" none [] [] [] [] true)).1 ∧
    Token.childrenEnd ∉ (emitNode (Node.mk "a" none [] [] [] [] true)).1 := by
  refine ⟨rfl, rfl, ?_, ?_, ?_⟩ <;>
    simp [emitNode, emitNodes, sortKeys, List.insertionSort, Node.EmitEmptyChildren,
      Node.Children]

/-- C5 (amended): `UnmarshalAll` is all-or-nothing — the first failing
node's error is returned with no partial record list — and
`MarshalNodes` stops at the first conversion error and returns it, but
the nodes converted before the failure remain appended to the
document's node list (the document is not left unchanged). -/
theorem c5_batch_first_error {α : Type} (marshal : α → Except String Node) (g : α → Node)
    (unmarshal : Node → Except String α) (h : Node → α) (d : Document)
    (pre : List α) (bad : α) (post : List α) (e : String)
    (npre : List Node) (nbad : Node) (npost : List Node) (eu : String)
    (hpre : ∀ x ∈ pre, marshal x = .ok (g x)) (hbad : marshal bad = .error e)
    (hnpre : ∀ p ∈ npre, unmarshal p = .ok (h p)) (hnbad : unmarshal nbad = .error eu) :
    MarshalNodes d marshal (pre ++ bad :: post) = (some e, ⟨d.Nodes ++ pre.map g⟩) ∧
    UnmarshalAll unmarshal (npre ++ nbad :: npost) = .error eu := by
  constructor
  · induction pre generalizing d with
    | nil => simp [MarshalNodes, hbad]
    | cons x xs ih =>
      have hx := hpre x (by simp)
      simp only [List.cons_append, List.append_eq, MarshalNodes, hx]
      rw [ih ⟨d.Nodes ++ [g x]⟩ (fun y hy => hpre y (by simp [hy]))]
      simp
  · show UnmarshalAll.go unmarshal [] (npre ++ nbad :: npost) = .error eu
    have : ∀ acc, UnmarshalAll.go unmarshal acc (npre ++ nbad :: npost) = .error eu := by
      induction npre with
      | nil => intro acc; simp [UnmarshalAll.go, hnbad]
      | cons p ps ih =>
        intro acc
        have hp := hnpre p (by simp)
        simp only [List.cons_append, UnmarshalAll.go, hp]
        exact ih (fun q hq => hnpre q (by simp [hq])) (acc ++ [h p])
    exact this []

/-- Witness for C5 at concrete inputs: one successful conversion before
the failing one; the failing marshal error is returned while the
document has gained the first node, and the failing unmarshal returns
its error with no list. -/
theorem c5_batch_first_error_witness :
    MarshalNodes ⟨[]⟩
        (fun b : Bool => if b then .ok (NewNode "a") else .error "boom")
        [true, false] = (some "boom", ⟨[NewNode "a"]⟩) ∧
    UnmarshalAll (fun _ : Node => (.error "bu" : Except String Bool))
        [NewNode "x"] = .error "bu" := by
  have := c5_batch_first_error
    (fun b : Bool => if b then .ok (NewNode "a") else .error "boom")
    (fun _ => NewNode "a")
    (fun _ : Node => (.error "bu" : Except String Bool)) (fun _ => true) ⟨[]⟩
    [true] false [] "boom" [] (NewNode "x") [] "bu"
    (by intro x hx; simp at hx; simp [hx]) (by simp)
    (by intro p hp; simp at hp) (by simp)
  simpa using this

/-- C5 counterexample to the claim as stated: with an empty document
and the item sequence `[ok, failing]`, `MarshalNodes` returns the
error of the second item but the document's node list has changed from
`[]` to `[NewNode "a"]` — the node converted before the failure was
appended, so the batch is not all-or-nothing on the marshal side. -/
theorem c5_marshal_mutates_on_failure :
    (MarshalNodes ⟨[]⟩
        (fun b : Bool => if b then .ok (NewNode "a") else .error "boom")
        [true, false]).1 = some "boom" ∧
    (MarshalNodes ⟨[]⟩
        (fun b : Bool => if b then .ok (NewNode "a") else .error "boom")
        [true, false]).2.Nodes = [NewNode "a"] ∧
    [NewNode "a"] ≠ ([] : List Node) := by
  refine ⟨rfl, rfl, by simp⟩

/-- C6: `Set` with integer key 3 on a node with one argument pads
indices 1–2 with KDL nulls and writes index 3, giving length 4; any
non-negative key at or beyond the argument count pads the gap with
nulls; any negative key fails with the invalid-index error and leaves
the node untouched. -/
theorem c6_set_pads_with_null (n : Node) (v : Value) (k : Int)
    (h1 : n.Arguments.length = 1) :
    ((Set n 3 v).1 = none ∧
      (Set n 3 v).2.Arguments.length = 4 ∧
      (Set n 3 v).2.Arguments[1]? = some (Value.null none) ∧
      (Set n 3 v).2.Arguments[2]? = some (Value.null none) ∧
      (Set n 3 v).2.Arguments[3]? = some v) ∧
    (0 ≤ k → (n.Arguments.length : Int) ≤ k →
      (Set n k v).1 = none ∧
      (Set n k v).2.Arguments
        = n.Arguments ++ List.replicate (k.toNat - n.Arguments.length) (Value.null none) ++ [v]) ∧
    (k < 0 → ∃ e, Set n k v = (some e, n)) := by
  cases n with
  | mk nm ty args props porder cs ee =>
    simp only [Node.Arguments] at h1 ⊢
    refine ⟨?_, ?_, ?_⟩
    · obtain ⟨a, rfl⟩ : ∃ a, args = [a] := by
        cases args with
        | nil => simp at h1
        | cons a rest =>
          simp at h1
          exact ⟨a, by simp [h1]⟩
      have hrep : List.replicate ((3 : Int).toNat + 1 - 1) (Value.null none)
          = [Value.null none, Value.null none, Value.null none] := rfl
      have h3 : ¬ ((3 : Int) < 0) := by norm_num
      simp [Set, Node.Arguments, h3, hrep]
    · intro hk0 hklen
      have hnotneg : ¬ (k < 0) := by omega
      have hlen : args.length ≤ k.toNat := by omega
      constructor
      · simp [Set, hnotneg]
      · have hrep : k.toNat + 1 - args.length = (k.toNat - args.length) + 1 := by omega
        simp only [Set, Node.Arguments]
        rw [if_neg hnotneg]
        simp only [Node.Arguments]
        rw [if_pos hlen, hrep, List.replicate_succ', ← List.append_assoc,
          set_append_of_length_le _ _ _ _ (by simp; omega)]
        have hidx : k.toNat - (args ++
            List.replicate (k.toNat - args.length) (Value.null none)).length = 0 := by
          simp; omega
        rw [hidx]
        simp
    · intro hneg
      exact ⟨.plain ("invalid argument index " ++ toString k), by simp [Set, hneg]⟩

/-- Witness for C6 at a node with one argument and at the negative key
`-1`: the padding write succeeds as claimed and the negative key is
rejected with the node unchanged. -/
theorem c6_set_pads_with_null_witness :
    (Node.mk "n" none [Value.integer none 7] [] [] [] false).Arguments.length = 1 ∧
    (((Set (Node.mk "n" none [Value.integer none 7] [] [] [] false) 3
          (Value.str none "V")).1 = none ∧
      (Set (Node.mk "n" none [Value.integer none 7] [] [] [] false) 3
          (Value.str none "V")).2.Arguments.length = 4 ∧
      (Set (Node.mk "n" none [Value.integer none 7] [] [] [] false) 3
          (Value.str none "V")).2.Arguments[1]? = some (Value.null none) ∧
      (Set (Node.mk "n" none [Value.integer none 7] [] [] [] false) 3
          (Value.str none "V")).2.Arguments[2]? = some (Value.null none) ∧
      (Set (Node.mk "n" none [Value.integer none 7] [] [] [] false) 3
          (Value.str none "V")).2.Arguments[3]? = some (Value.str none "V")) ∧
    (0 ≤ (-1 : Int) →
      ((Node.mk "n" none [Value.integer none 7] [] [] [] false).Arguments.length : Int) ≤ -1 →
      (Set (Node.mk "n" none [Value.integer none 7] [] [] [] false) (-1)
          (Value.str none "V")).1 = none ∧
      (Set (Node.mk "n" none [Value.integer none 7] [] [] [] false) (-1)
          (Value.str none "V")).2.Arguments
        = (Node.mk "n" none [Value.integer none 7] [] [] [] false).Arguments ++
            List.replicate ((-1 : Int).toNat -
              (Node.mk "n" none [Value.integer none 7] [] [] [] false).Arguments.length)
              (Value.null none) ++ [Value.str none "V"]) ∧
    ((-1 : Int) < 0 →
      ∃ e, Set (Node.mk "n" none [Value.integer none 7] [] [] [] false) (-1)
          (Value.str none "V")
        = (some e, Node.mk "n" none [Value.integer none 7] [] [] [] false))) :=
  ⟨rfl, c6_set_pads_with_null (Node.mk "n" none [Value.integer none 7] [] [] [] false)
    (Value.str none "V") (-1) rfl⟩

/-- C7: `Get` with a string key absent from the node's properties fails
with an error satisfying the is-not-found predicate
(`errors.Is(err, ErrNotFound)`); a key that is present but holds a
non-string value makes `Get node key AsString` fail with the
kind-mismatch error, which does not satisfy is-not-found. -/
theorem c7_get_notfound_distinction (n : Node) (k : String) :
    (mapLookup n.Properties k = none →
      ∃ e, Get (some n) k AsString = .error e ∧ e.isNotFound = true) ∧
    (∀ v, mapLookup n.Properties k = some v → (∀ ty s, v ≠ .str ty s) →
      ∃ e, Get (some n) k AsString = .error e ∧ e.isNotFound = false) := by
  constructor
  · intro h
    exact ⟨.notFound ("property " ++ k), by simp [Get, h], rfl⟩
  · intro v hv hns
    refine ⟨.plain "value is not a string", ?_, rfl⟩
    simp only [Get, hv]
    cases v with
    | str ty s => exact absurd rfl (hns ty s)
    | integer ty i => rfl
    | float ty b => rfl
    | bigInt ty i => rfl
    | bigFloat ty b => rfl
    | boolean ty b => rfl
    | null ty => rfl

/-- Witness for C7: a node with the single integer property `a`;
`Get` at `missing` is not-found, `Get` at `a` through `AsString` is a
kind mismatch that is not not-found. -/
theorem c7_get_notfound_distinction_witness :
    (∃ e, Get (some (Node.mk "n" none [] [("a", Value.integer none 1)] ["a"] [] false))
        "missing" AsString = .error e ∧ e.isNotFound = true) ∧
    (∃ e, Get (some (Node.mk "n" none [] [("a", Value.integer none 1)] ["a"] [] false))
        "a" AsString = .error e ∧ e.isNotFound = false) :=
  ⟨(c7_get_notfound_distinction
      (Node.mk "n" none [] [("a", Value.integer none 1)] ["a"] [] false) "missing").1
    (by simp [Node.Properties, mapLookup]),
   (c7_get_notfound_distinction
      (Node.mk "n" none [] [("a", Value.integer none 1)] ["a"] [] false) "a").2
    (Value.integer none 1) (by simp [Node.Properties, mapLookup])
    (by intro ty s h; cases h)⟩

/-- C8: `AsInt64` on a `BigInt` whose value lies outside the signed
64-bit range fails with the range error while `AsBigInt` succeeds with
the exact value; a `BigInt` inside the range converts exactly. -/
theorem c8_bigint_range (ty : Option String) (v : Int) :
    ((v < int64Min ∨ int64Max < v) →
      AsInt64 (.bigInt ty v) = .error (.plain "big.Int value cannot be represented as int64") ∧
      AsBigInt (.bigInt ty v) = .ok v) ∧
    (int64Min ≤ v → v ≤ int64Max → AsInt64 (.bigInt ty v) = .ok v) := by
  constructor
  · intro h
    have hnot : ¬ (int64Min ≤ v ∧ v ≤ int64Max) := by
      simp only [int64Min, int64Max] at h ⊢
      omega
    exact ⟨by simp [AsInt64, hnot], rfl⟩
  · intro h1 h2
    simp [AsInt64, h1, h2]

/-- Witness for C8 at `2^63` (just past the range) and at `5`. -/
theorem c8_bigint_range_witness :
    (((2 : Int) ^ 63 < int64Min ∨ int64Max < (2 : Int) ^ 63) ∧
      AsInt64 (.bigInt none ((2 : Int) ^ 63))
        = .error (.plain "big.Int value cannot be represented as int64") ∧
      AsBigInt (.bigInt none ((2 : Int) ^ 63)) = .ok ((2 : Int) ^ 63)) ∧
    AsInt64 (.bigInt none 5) = .ok 5 :=
  have h : (2 : Int) ^ 63 < int64Min ∨ int64Max < (2 : Int) ^ 63 := by
    norm_num [int64Min, int64Max]
  ⟨⟨h, (c8_bigint_range none ((2 : Int) ^ 63)).1 h⟩,
   (c8_bigint_range none 5).2 (by norm_num [int64Min]) (by norm_num [int64Max])⟩

theorem GetKVloop_not_found {R : Type} (name : String) (fn : Value → Except HErr R)
    (cs : List Node) (h : ∀ c ∈ cs, c.Name ≠ name) :
    GetKVloop name fn cs = .err (.notFound ("child " ++ name)) := by
  induction cs with
  | nil => rfl
  | cons c cs ih =>
    have hc := h c (by simp)
    simp only [GetKVloop, if_neg hc]
    exact ih (fun c2 hc2 => h c2 (by simp [hc2]))

theorem GetKVloop_skip {R : Type} (name : String) (fn : Value → Except HErr R)
    (pre cs : List Node) (h : ∀ p ∈ pre, p.Name ≠ name) :
    GetKVloop name fn (pre ++ cs) = GetKVloop name fn cs := by
  induction pre with
  | nil => rfl
  | cons p ps ih =>
    have hp := h p (by simp)
    simp only [List.cons_append, GetKVloop, if_neg hp]
    exact ih (fun q hq => h q (by simp [hq]))

/-- C9 counterexample: on a parent whose only child `k` has an empty
argument sequence, `GetKV` aborts with an index-out-of-range panic
(the unchecked `child.Arguments[0]`) instead of returning any error —
so `GetKV` is not the claimed total operation. -/
theorem c9_getkv_counterexample :
    GetKV (some (Node.mk "p" none [] [] []
        [Node.mk "k" none [] [] [] [] false] false)) "k" AsString
      = .panic "runtime error: index out of range [0] with length 0" := rfl

/-- C9 (amended): `GetKV` fails with a wrapped not-found error exactly
when no child with the given name exists, and applies `fn` to the first
argument of the first child with that name when that child has at least
one argument — but when the first matching child has an empty argument
sequence, `GetKV` aborts with an index-out-of-range panic rather than
returning an error. -/
theorem c9_getkv_first_child {R : Type} (n : Node) (name : String)
    (fn : Value → Except HErr R) :
    ((∀ c ∈ n.Children, c.Name ≠ name) →
      GetKV (some n) name fn = .err (.notFound ("child " ++ name)) ∧
      (HErr.notFound ("child " ++ name)).isNotFound = true) ∧
    (∀ pre c post, n.Children = pre ++ c :: post → (∀ p ∈ pre, p.Name ≠ name) →
      c.Name = name →
      (c.Arguments = [] →
        GetKV (some n) name fn
          = .panic "runtime error: index out of range [0] with length 0") ∧
      (∀ v vs, c.Arguments = v :: vs →
        GetKV (some n) name fn
          = match fn v with
            | .ok r => .ok r
            | .error e => .err e)) := by
  constructor
  · intro h
    exact ⟨by simp only [GetKV]; exact GetKVloop_not_found name fn n.Children h, rfl⟩
  · intro pre c post hsplit hpre hc
    have hbase : GetKV (some n) name fn = GetKVloop name fn (c :: post) := by
      simp only [GetKV, hsplit]
      exact GetKVloop_skip name fn pre (c :: post) hpre
    constructor
    · intro hargs
      rw [hbase]
      simp [GetKVloop, hc, hargs]
    · intro v vs hargs
      rw [hbase]
      simp only [GetKVloop, if_pos hc, hargs]

/-- Witness for C9 (amended): a parent with a single child `a` holding
the string argument `hi`; lookup of `zz` is not-found, lookup of `a`
extracts the argument. -/
theorem c9_getkv_first_child_witness :
    GetKV (some (Node.mk "p" none [] [] []
        [Node.mk "a" none [Value.str none "hi"] [] [] [] false] false)) "zz" AsString
      = .err (.notFound ("child " ++ "zz")) ∧
    GetKV (some (Node.mk "p" none [] [] []
        [Node.mk "a" none [Value.str none "hi"] [] [] [] false] false)) "a" AsString
      = .ok "hi" :=
  ⟨((c9_getkv_first_child (Node.mk "p" none [] [] []
        [Node.mk "a" none [Value.str none "hi"] [] [] [] false] false) "zz" AsString).1
      (by
        intro c hc
        simp only [Node.Children, List.mem_singleton] at hc
        subst hc
        simp [Node.Name])).1,
   ((c9_getkv_first_child (Node.mk "p" none [] [] []
        [Node.mk "a" none [Value.str none "hi"] [] [] [] false] false) "a" AsString).2
      [] (Node.mk "a" none [Value.str none "hi"] [] [] [] false) [] rfl
      (by intro p hp; simp at hp) rfl).2 (Value.str none "hi") [] rfl⟩

/-- C10: emission is not read-only on the tree — after `EmitDocument`
the document's nodes are exactly their `sortTree` image: every emitted
node's `PropertyOrder` slice has been sorted in place into
lexicographic (byte) order, and every other field — name, type
annotation, arguments, properties map, hints — is unchanged, with the
children transformed the same way (in Go the `Children` pointer slice
itself is untouched; the mutation lives in the pointed-to nodes, which
the value tree renders through `sortTreeList`). -/
theorem c10_emit_sorts_property_order_in_place (d : Document) :
    (EmitDocument d).2.Nodes = sortTreeList d.Nodes ∧
    (∀ n : Node,
      (sortTree n).Name = n.Name ∧
      (sortTree n).TypeAnnot = n.TypeAnnot ∧
      (sortTree n).Arguments = n.Arguments ∧
      (sortTree n).Properties = n.Properties ∧
      (sortTree n).EmitEmptyChildren = n.EmitEmptyChildren ∧
      (sortTree n).Children = sortTreeList n.Children ∧
      (sortTree n).PropertyOrder = sortKeys n.PropertyOrder ∧
      ((sortTree n).PropertyOrder).Sorted (fun a b => strLe a b = true)) := by
  constructor
  · simp [EmitDocument, emitNodes_snd]
  · intro n
    cases n with
    | mk nm ty args props porder cs ee =>
      simp only [sortTree, Node.Name, Node.TypeAnnot, Node.Arguments, Node.Properties,
        Node.EmitEmptyChildren, Node.Children, Node.PropertyOrder, and_self, true_and,
        eq_self_iff_true]
      exact sortKeys_sorted porder

/-! ### Round-trip infrastructure -/

theorem nodupB_iff (l : List String) : nodupB l = true ↔ l.Nodup := by
  induction l with
  | nil => simp [nodupB]
  | cons k ks ih => simp [nodupB, ih, List.elem_iff]

theorem mapLookup_isSome_mem (m : List (String × Value)) (k : String)
    (h : (mapLookup m k).isSome) : k ∈ m.map Prod.fst := by
  induction m with
  | nil => simp [mapLookup] at h
  | cons p rest ih =>
    by_cases hp : p.1 = k
    · simp [hp]
    · simp only [mapLookup, if_neg hp] at h
      simp [ih h]

theorem wfB_spec {name : String} {ty : Option String} {args : List Value}
    {props : List (String × Value)} {porder : List String} {children : List Node} {ee : Bool}
    (h : wfB (.mk name ty args props porder children ee) = true) :
    porder.Nodup ∧ (∀ k ∈ porder, (mapLookup props k).isSome)
      ∧ (∀ k, (mapLookup props k).isSome → k ∈ porder)
      ∧ wfList children = true := by
  simp only [wfB, Bool.and_eq_true, List.all_eq_true] at h
  obtain ⟨⟨⟨h1, h2⟩, h3⟩, h4⟩ := h
  refine ⟨(nodupB_iff _).mp h1, fun k hk => h2 k hk, ?_, h4⟩
  intro k hk
  have hcontains := h3 k (mapLookup_isSome_mem props k hk)
  exact List.elem_iff.mp hcontains

theorem wfList_mem {cs : List Node} (h : wfList cs = true) : ∀ c ∈ cs, wfB c = true := by
  induction cs with
  | nil => simp
  | cons c cs ih =>
    simp only [wfList, Bool.and_eq_true] at h
    intro c2 hc2
    rcases List.mem_cons.mp hc2 with hceq | hmem
    · exact hceq ▸ h.1
    · exact ih h.2 c2 hmem

theorem atList_cons (e : Event) (rest : List Event) :
    atList (e :: rest) = ⟨some e, rest⟩ := rfl

theorem flattenNode_head (n : Node) :
    ∃ r, flattenNode n = Event.startNode n.Name (Value.null n.TypeAnnot) :: r := by
  cases n with
  | mk name ty args props porder children ee =>
    refine ⟨args.map Event.argument
      ++ ((sortKeys porder).map (fun k => Event.property k (lookupD props k))
        ++ (flattenNodes children ++ [Event.endNode])), ?_⟩
    simp [flattenNode, Node.Name, Node.TypeAnnot]

theorem flattenNode_length_pos (n : Node) : 1 ≤ (flattenNode n).length := by
  obtain ⟨r, hr⟩ := flattenNode_head n
  simp [hr]

theorem flattenNode_noPE (n : Node) :
    ∀ e ∈ flattenNode n, Event.type e ≠ EventType.parseError := by
  induction n using Node.strongInduction with
  | ih n hch =>
    cases n with
    | mk name ty args props porder children ee =>
      simp only [Node.Children] at hch
      have hlist : ∀ cs : List Node,
          (∀ c ∈ cs, ∀ e ∈ flattenNode c, Event.type e ≠ EventType.parseError) →
          ∀ e ∈ flattenNodes cs, Event.type e ≠ EventType.parseError := by
        intro cs hcs
        induction cs with
        | nil => simp [flattenNodes]
        | cons c cs ihcs =>
          intro e he
          simp only [flattenNodes, List.mem_append] at he
          rcases he with he | he
          · exact hcs c (by simp) e he
          · exact ihcs (fun c2 hc2 => hcs c2 (by simp [hc2])) e he
      intro e he
      simp only [flattenNode] at he
      rcases List.mem_append.mp he with he | he
      · rcases List.mem_append.mp he with he | he
        · rcases List.mem_append.mp he with he | he
          · rcases List.mem_append.mp he with he | he
            · simp only [List.mem_singleton] at he
              subst he
              simp [Event.type]
            · simp only [List.mem_map] at he
              obtain ⟨a, -, rfl⟩ := he
              simp [Event.type]
          · simp only [List.mem_map] at he
            obtain ⟨k, -, rfl⟩ := he
            simp [Event.type]
        · exact hlist children hch e he
      · simp only [List.mem_singleton] at he
        subst he
        simp [Event.type]

theorem flattenNodes_noPE (cs : List Node) :
    ∀ e ∈ flattenNodes cs, Event.type e ≠ EventType.parseError := by
  induction cs with
  | nil => simp [flattenNodes]
  | cons c cs ih =>
    intro e he
    simp only [flattenNodes, List.mem_append] at he
    rcases he with he | he
    · exact flattenNode_noPE c e he
    · exact ih e he

theorem headNe_of_forall (τ : EventType) (l : List Event)
    (h : ∀ e ∈ l, Event.type e ≠ τ) : headNe τ l := by
  intro e he
  cases l with
  | nil => simp at he
  | cons y ys =>
    simp only [List.head?_cons, Option.some.injEq] at he
    exact he ▸ h y (by simp)

theorem headNe_append (τ : EventType) (l l2 : List Event)
    (hl : ∀ e ∈ l, Event.type e ≠ τ) (h2 : headNe τ l2) : headNe τ (l ++ l2) := by
  intro e he
  cases l with
  | nil => exact h2 e (by simpa using he)
  | cons y ys =>
    simp only [List.cons_append, List.head?_cons, Option.some.injEq] at he
    exact he ▸ hl y (by simp)

theorem headNe_cons (τ : EventType) (x : Event) (xs : List Event)
    (hx : Event.type x ≠ τ) : headNe τ (x :: xs) := by
  intro e he
  simp only [List.head?_cons, Option.some.injEq] at he
  exact he ▸ hx

theorem headNe_flattenNodes_append (τ : EventType) (cs : List Node) (t : List Event)
    (hτ : τ ≠ EventType.startNode) (ht : headNe τ t) :
    headNe τ (flattenNodes cs ++ t) := by
  cases cs with
  | nil => simpa [flattenNodes] using ht
  | cons c cs =>
    obtain ⟨r, hr⟩ := flattenNode_head c
    rw [show flattenNodes (c :: cs) ++ t
        = Event.startNode (Node.Name c) (Value.null (Node.TypeAnnot c))
            :: (r ++ (flattenNodes cs ++ t)) by simp [flattenNodes, hr]]
    exact headNe_cons τ _ _ (by simp [Event.type]; exact fun h => hτ h.symm)

theorem pnext_at (e : Event) (l : List Event)
    (he1 : Event.type e ≠ EventType.eof) (he2 : Event.type e ≠ EventType.parseError)
    (hl : headNe EventType.parseError l) (hne : l ≠ []) :
    pnext ⟨some e, l⟩ = .ok (atList l) := by
  cases l with
  | nil => exact absurd rfl hne
  | cons y ys =>
    have hy : Event.type y ≠ EventType.parseError := hl y (by simp)
    simp [pnext, he1, he2, pnext.pull, hy, atList]

theorem pnext_start (l : List Event) (hl : headNe EventType.parseError l) (hne : l ≠ []) :
    pnext ⟨none, l⟩ = .ok (atList l) := by
  cases l with
  | nil => exact absurd rfl hne
  | cons y ys =>
    have hy : Event.type y ≠ EventType.parseError := hl y (by simp)
    simp [pnext, pnext.pull, hy, atList]

theorem accept_at (t : EventType) (e : Event) (l : List Event)
    (ht : Event.type e = t) (he1 : Event.type e ≠ EventType.eof)
    (he2 : Event.type e ≠ EventType.parseError)
    (hl : headNe EventType.parseError l) (hne : l ≠ []) :
    accept t ⟨some e, l⟩ = .ok (some e, atList l) := by
  simp [accept, ht, pnext_at e l he1 he2 hl hne]

theorem propFold_fresh (ks : List String) (f : String → Value) :
    ∀ (props : List (String × Value)) (porder : List String),
      ks.Nodup → (∀ k ∈ ks, mapLookup props k = none) →
      propFold props porder (ks.map fun k => (k, f k))
        = (props ++ ks.map fun k => (k, f k), porder ++ ks) := by
  induction ks with
  | nil => intro props porder _ _; simp [propFold]
  | cons k ks ih =>
    intro props porder hnd habs
    have hk : mapLookup props k = none := habs k (by simp)
    have hknotin : k ∉ ks := (List.nodup_cons.mp hnd).1
    simp only [List.map_cons, propFold, hk, Option.isSome_none, Bool.false_eq_true, if_false]
    rw [mapInsert_of_absent props k (f k) hk]
    rw [ih (props ++ [(k, f k)]) (porder ++ [k]) (List.nodup_cons.mp hnd).2 ?_]
    · simp
    · intro k2 hk2
      have h2 : mapLookup props k2 = none := habs k2 (by simp [hk2])
      rw [mapLookup_append_right _ h2]
      have hne : k ≠ k2 := fun h => hknotin (h ▸ hk2)
      simp [mapLookup, hne]

theorem argPropLoop_args (vs : List Value) :
    ∀ (fuel : Nat) (args : List Value) (props : List (String × Value)) (porder : List String)
      (t : List Event), headNe EventType.parseError t → t ≠ [] → vs.length ≤ fuel →
      argPropLoop fuel (atList (vs.map Event.argument ++ t)) args props porder
        = argPropLoop (fuel - vs.length) (atList t) (args ++ vs) props porder := by
  induction vs with
  | nil => intro fuel args props porder t ht hne hfuel; simp
  | cons v vs ih =>
    intro fuel args props porder t ht hne hfuel
    cases fuel with
    | zero => simp at hfuel
    | succ f =>
      have hnext : headNe EventType.parseError (vs.map Event.argument ++ t) := by
        refine headNe_append _ _ _ ?_ ht
        intro e he
        simp only [List.mem_map] at he
        obtain ⟨a, -, rfl⟩ := he
        simp [Event.type]
      have hne2 : vs.map Event.argument ++ t ≠ [] := by
        intro hc
        exact hne (List.append_eq_nil.mp hc).2
      have hacc := accept_at .argument (Event.argument v) (vs.map Event.argument ++ t)
        rfl (by simp [Event.type]) (by simp [Event.type]) hnext hne2
      have hfuel2 : vs.length + 1 ≤ f + 1 := by simpa using hfuel
      simp only [List.map_cons, List.cons_append, atList_cons, argPropLoop, hacc]
      rw [ih f (args ++ [v]) props porder t ht hne (by omega)]
      have hf : f - vs.length = f + 1 - (vs.length + 1) := by omega
      have hlen : (v :: vs).length = vs.length + 1 := by simp
      rw [hlen, ← hf, List.append_assoc, List.singleton_append]

theorem argPropLoop_props (kvs : List (String × Value)) :
    ∀ (fuel : Nat) (args : List Value) (props : List (String × Value)) (porder : List String)
      (t : List Event),
      headNe EventType.parseError t → headNe EventType.argument t →
      headNe EventType.property t → t ≠ [] → kvs.length + 1 ≤ fuel →
      argPropLoop fuel (atList (kvs.map (fun kv => Event.property kv.1 kv.2) ++ t))
          args props porder
        = .ok (args, (propFold props porder kvs).1, (propFold props porder kvs).2, atList t) := by
  induction kvs with
  | nil =>
    intro fuel args props porder t ht1 ht2 ht3 hne hfuel
    cases fuel with
    | zero => simp at hfuel
    | succ f =>
      cases t with
      | nil => exact absurd rfl hne
      | cons y ys =>
        have hy2 : Event.type y ≠ EventType.argument := ht2 y (by simp)
        have hy3 : Event.type y ≠ EventType.property := ht3 y (by simp)
        cases y with
        | argument v => exact absurd rfl hy2
        | property k v => exact absurd rfl hy3
        | startNode nm vv => simp [atList_cons, argPropLoop, propFold]
        | endNode => simp [atList_cons, argPropLoop, propFold]
        | eof => simp [atList_cons, argPropLoop, propFold]
        | parseError => simp [atList_cons, argPropLoop, propFold]
  | cons kv kvs ih =>
    intro fuel args props porder t ht1 ht2 ht3 hne hfuel
    obtain ⟨k, v⟩ := kv
    cases fuel with
    | zero => simp at hfuel
    | succ f =>
      have hnext : headNe EventType.parseError
          (kvs.map (fun kv => Event.property kv.1 kv.2) ++ t) := by
        refine headNe_append _ _ _ ?_ ht1
        intro e he
        simp only [List.mem_map] at he
        obtain ⟨p, -, rfl⟩ := he
        simp [Event.type]
      have hne2 : kvs.map (fun kv => Event.property kv.1 kv.2) ++ t ≠ [] := by
        intro hc
        exact hne (List.append_eq_nil.mp hc).2
      have hacc := accept_at .property (Event.property k v) _
        rfl (by simp [Event.type]) (by simp [Event.type]) hnext hne2
      have hfuel2 : kvs.length + 1 + 1 ≤ f + 1 := by simpa using hfuel
      simp only [List.map_cons, List.cons_append, atList_cons, argPropLoop, hacc]
      rw [ih f args (mapInsert props k v)
        (if (mapLookup props k).isSome = true then porder else porder ++ [k]) t
        ht1 ht2 ht3 hne (by omega)]
      simp [propFold]

theorem childLoop_flatten (cs : List Node)
    (hcs : ∀ c ∈ cs, ∀ (fuel : Nat) (t : List Event),
      headNe EventType.parseError t → t ≠ [] → (flattenNode c).length ≤ fuel →
      nextNode fuel (atList (flattenNode c ++ t)) = .ok (canon c, atList t)) :
    ∀ (fuel : Nat) (acc : List Node) (t : List Event),
      headNe EventType.parseError t → headNe EventType.startNode t → t ≠ [] →
      (flattenNodes cs).length + 1 ≤ fuel →
      childLoop fuel (atList (flattenNodes cs ++ t)) acc
        = .ok (acc ++ canonList cs, atList t) := by
  induction cs with
  | nil =>
    intro fuel acc t ht1 ht2 hne hfuel
    cases fuel with
    | zero => simp [flattenNodes] at hfuel
    | succ f =>
      cases t with
      | nil => exact absurd rfl hne
      | cons y ys =>
        have hy2 : Event.type y ≠ EventType.startNode := ht2 y (by simp)
        cases y with
        | startNode nm vv => exact absurd rfl hy2
        | argument v => simp [flattenNodes, atList_cons, childLoop, canonList]
        | property k v => simp [flattenNodes, atList_cons, childLoop, canonList]
        | endNode => simp [flattenNodes, atList_cons, childLoop, canonList]
        | eof => simp [flattenNodes, atList_cons, childLoop, canonList]
        | parseError => simp [flattenNodes, atList_cons, childLoop, canonList]
  | cons c cs ih =>
    intro fuel acc t ht1 ht2 hne hfuel
    obtain ⟨r, hr⟩ := flattenNode_head c
    have hlenflat : (flattenNodes (c :: cs)).length
        = (flattenNode c).length + (flattenNodes cs).length := by
      simp [flattenNodes]
    have hposc := flattenNode_length_pos c
    cases fuel with
    | zero => omega
    | succ f =>
      have htail_ne : flattenNodes cs ++ t ≠ [] := by
        intro hcontra
        exact hne (List.append_eq_nil.mp hcontra).2
      have htail_PE : headNe EventType.parseError (flattenNodes cs ++ t) :=
        headNe_append _ _ _ (flattenNodes_noPE cs) ht1
      have hstep := hcs c (by simp) f (flattenNodes cs ++ t) htail_PE htail_ne (by omega)
      have hdec : flattenNodes (c :: cs) ++ t
          = Event.startNode (Node.Name c) (Value.null (Node.TypeAnnot c))
              :: (r ++ (flattenNodes cs ++ t)) := by
        simp [flattenNodes, hr]
      have hstate : (⟨some (Event.startNode (Node.Name c) (Value.null (Node.TypeAnnot c))),
          r ++ (flattenNodes cs ++ t)⟩ : PState)
          = atList (flattenNode c ++ (flattenNodes cs ++ t)) := by
        rw [hr]
        rfl
      have hstep2 : nextNode f ⟨some (Event.startNode (Node.Name c) (Value.null (Node.TypeAnnot c))),
          r ++ (flattenNodes cs ++ t)⟩ = Except.ok (canon c, atList (flattenNodes cs ++ t)) := by
        rw [hstate]
        exact hstep
      have hrest := ih (fun c2 hc2 => hcs c2 (by simp [hc2])) f (acc ++ [canon c]) t
        ht1 ht2 hne (by omega)
      rw [hdec]
      simp only [atList_cons, childLoop, hstep2, hrest]
      simp [canonList, List.append_assoc]

theorem nextNode_flatten (n : Node) :
    wfB n = true →
    ∀ (fuel : Nat) (t : List Event),
      headNe EventType.parseError t → t ≠ [] → (flattenNode n).length ≤ fuel →
      nextNode fuel (atList (flattenNode n ++ t)) = .ok (canon n, atList t) := by
  induction n using Node.strongInduction with
  | ih n hch =>
    cases n with
    | mk name ty args props porder children ee =>
      intro hwf fuel t ht hne hfuel
      simp only [Node.Children] at hch
      obtain ⟨hnd, hsome, hmem2, hwfl⟩ := wfB_spec hwf
      have hwfc : ∀ c ∈ children, wfB c = true := wfList_mem hwfl
      have hfuel2 : args.length + (sortKeys porder).length
          + (flattenNodes children).length + 2 ≤ fuel := by
        have h2 := hfuel
        simp [flattenNode] at h2
        omega
      cases fuel with
      | zero => omega
      | succ f =>
        have hdec : flattenNode (Node.mk name ty args props porder children ee) ++ t
            = Event.startNode name (Value.null ty)
                :: (args.map Event.argument
                  ++ ((sortKeys porder).map (fun k => Event.property k (lookupD props k))
                    ++ (flattenNodes children ++ (Event.endNode :: t)))) := by
          simp [flattenNode]
        have hT2ne : flattenNodes children ++ (Event.endNode :: t) ≠ [] := by
          intro hcontra
          exact absurd (List.append_eq_nil.mp hcontra).2 (by simp)
        have hT2PE : headNe EventType.parseError
            (flattenNodes children ++ (Event.endNode :: t)) :=
          headNe_append _ _ _ (flattenNodes_noPE children)
            (headNe_cons _ _ _ (by simp [Event.type]))
        have hT2arg : headNe EventType.argument
            (flattenNodes children ++ (Event.endNode :: t)) :=
          headNe_flattenNodes_append _ children _ (by simp)
            (headNe_cons _ _ _ (by simp [Event.type]))
        have hT2prop : headNe EventType.property
            (flattenNodes children ++ (Event.endNode :: t)) :=
          headNe_flattenNodes_append _ children _ (by simp)
            (headNe_cons _ _ _ (by simp [Event.type]))
        have hT1ne : (sortKeys porder).map (fun k => Event.property k (lookupD props k))
            ++ (flattenNodes children ++ (Event.endNode :: t)) ≠ [] := by
          intro hcontra
          exact hT2ne (List.append_eq_nil.mp hcontra).2
        have hT1PE : headNe EventType.parseError
            ((sortKeys porder).map (fun k => Event.property k (lookupD props k))
              ++ (flattenNodes children ++ (Event.endNode :: t))) := by
          refine headNe_append _ _ _ ?_ hT2PE
          intro e he
          simp only [List.mem_map] at he
          obtain ⟨k, -, rfl⟩ := he
          simp [Event.type]
        have hT0ne : args.map Event.argument
            ++ ((sortKeys porder).map (fun k => Event.property k (lookupD props k))
              ++ (flattenNodes children ++ (Event.endNode :: t))) ≠ [] := by
          intro hcontra
          exact hT1ne (List.append_eq_nil.mp hcontra).2
        have hT0PE : headNe EventType.parseError
            (args.map Event.argument
              ++ ((sortKeys porder).map (fun k => Event.property k (lookupD props k))
                ++ (flattenNodes children ++ (Event.endNode :: t)))) := by
          refine headNe_append _ _ _ ?_ hT1PE
          intro e he
          simp only [List.mem_map] at he
          obtain ⟨a, -, rfl⟩ := he
          simp [Event.type]
        have hacc := accept_at .startNode (Event.startNode name (Value.null ty)) _
          rfl (by simp [Event.type]) (by simp [Event.type]) hT0PE hT0ne
        have hPmap : (sortKeys porder).map (fun k => Event.property k (lookupD props k))
            = ((sortKeys porder).map (fun k => (k, lookupD props k))).map
                (fun kv => Event.property kv.1 kv.2) := by
          simp [List.map_map]
        have hfold : propFold [] [] ((sortKeys porder).map (fun k => (k, lookupD props k)))
            = ((sortKeys porder).map (fun k => (k, lookupD props k)), sortKeys porder) := by
          simpa using propFold_fresh (sortKeys porder) (fun k => lookupD props k) [] []
            (sortKeys_nodup hnd) (fun k _ => rfl)
        have hAP : argPropLoop f (atList (args.map Event.argument
            ++ ((sortKeys porder).map (fun k => Event.property k (lookupD props k))
              ++ (flattenNodes children ++ (Event.endNode :: t))))) [] [] []
            = .ok ([] ++ args,
                (sortKeys porder).map (fun k => (k, lookupD props k)),
                sortKeys porder,
                atList (flattenNodes children ++ (Event.endNode :: t))) := by
          rw [argPropLoop_args args f [] [] [] _ hT1PE hT1ne (by omega), hPmap,
            argPropLoop_props ((sortKeys porder).map (fun k => (k, lookupD props k)))
              (f - args.length) ([] ++ args) [] [] _ hT2PE hT2arg hT2prop hT2ne
              (by simp only [List.length_map]; omega), hfold]
        have hCL : childLoop f (atList (flattenNodes children ++ (Event.endNode :: t))) []
            = .ok ([] ++ canonList children, atList (Event.endNode :: t)) :=
          childLoop_flatten children (fun c hc => hch c hc (hwfc c hc)) f []
            (Event.endNode :: t) (headNe_cons _ _ _ (by simp [Event.type]))
            (headNe_cons _ _ _ (by simp [Event.type])) (by simp) (by omega)
        have haccEnd : accept .endNode ⟨some Event.endNode, t⟩
            = .ok (some Event.endNode, atList t) :=
          accept_at .endNode Event.endNode t rfl (by simp [Event.type])
            (by simp [Event.type]) ht hne
        rw [hdec]
        simp only [atList_cons, nextNode, hacc, hAP, hCL, haccEnd]
        simp [canon]

theorem flattenNode_canon (n : Node) : flattenNode (canon n) = flattenNode n := by
  induction n using Node.strongInduction with
  | ih n hch =>
    cases n with
    | mk name ty args props porder children ee =>
      simp only [Node.Children] at hch
      have hlist : flattenNodes (canonList children) = flattenNodes children := by
        have hgen : ∀ cs : List Node, (∀ c ∈ cs, flattenNode (canon c) = flattenNode c) →
            flattenNodes (canonList cs) = flattenNodes cs := by
          intro cs hcs
          induction cs with
          | nil => simp [canonList]
          | cons c2 cs2 ihcs =>
            simp only [canonList, flattenNodes]
            rw [hcs c2 (by simp), ihcs (fun c3 hc3 => hcs c3 (by simp [hc3]))]
        exact hgen children hch
      simp only [canon, flattenNode, sortKeys_idem, hlist]
      congr 1
      congr 1
      congr 1
      apply List.map_congr_left
      intro k hk
      simp only [lookupD, mapLookup_map_pair, if_pos hk, Option.getD_some]

theorem flattenNodes_canonList (cs : List Node) :
    flattenNodes (canonList cs) = flattenNodes cs := by
  induction cs with
  | nil => rfl
  | cons c cs ih => simp [canonList, flattenNodes, flattenNode_canon, ih]

theorem canonList_forall₂ (cs : List Node)
    (h : ∀ c ∈ cs, NodeEquiv (canon c) c) :
    List.Forall₂ NodeEquiv (canonList cs) cs := by
  induction cs with
  | nil => exact List.Forall₂.nil
  | cons c cs ih =>
    exact List.Forall₂.cons (h c (by simp)) (ih (fun c2 hc2 => h c2 (by simp [hc2])))

theorem canon_equiv (n : Node) : wfB n = true → NodeEquiv (canon n) n := by
  induction n using Node.strongInduction with
  | ih n hch =>
    cases n with
    | mk name ty args props porder children ee =>
      intro hwf
      simp only [Node.Children] at hch
      obtain ⟨hnd, hsome, hmem2, hwfl⟩ := wfB_spec hwf
      have hwfc := wfList_mem hwfl
      simp only [canon]
      refine NodeEquiv.mk ?_ (canonList_forall₂ children (fun c hc => hch c hc (hwfc c hc)))
      intro k
      by_cases hk : k ∈ porder
      · have hk2 : k ∈ sortKeys porder := sortKeys_mem.mpr hk
        rw [mapLookup_map_pair, if_pos hk2]
        have hsome2 := hsome k hk
        cases hcase : mapLookup props k with
        | none => rw [hcase] at hsome2; simp at hsome2
        | some v => simp [lookupD, hcase]
      · have hk2 : k ∉ sortKeys porder := fun hcontra => hk (sortKeys_mem.mp hcontra)
        rw [mapLookup_map_pair, if_neg hk2]
        cases hcase : mapLookup props k with
        | none => rfl
        | some v => exact absurd (hmem2 k (by simp [hcase])) hk

theorem ParseDocument_flattenDoc (d : Document) (h : wfList d.Nodes = true) :
    ParseDocument (flattenDoc d) = .ok ⟨canonList d.Nodes⟩ := by
  have hwfc := wfList_mem h
  have hPE : headNe EventType.parseError (flattenNodes d.Nodes ++ [Event.eof]) :=
    headNe_append _ _ _ (flattenNodes_noPE d.Nodes)
      (headNe_cons _ _ _ (by simp [Event.type]))
  have hne : flattenNodes d.Nodes ++ [Event.eof] ≠ [] := by
    intro hcontra
    exact absurd (List.append_eq_nil.mp hcontra).2 (by simp)
  have hinit := pnext_start _ hPE hne
  simp only [ParseDocument, flattenDoc, hinit]
  rw [childLoop_flatten d.Nodes (fun c hc => nextNode_flatten c (hwfc c hc)) _ []
    [Event.eof] (headNe_cons _ _ _ (by simp [Event.type]))
    (headNe_cons _ _ _ (by simp [Event.type])) (by simp)
    (by simp only [List.length_append, List.length_singleton]; omega)]
  simp [atList, accept, pnext, Event.type]

/-- C1: for every document built from well-formed trees (no
duplicate-property keys, property order matching the property set),
flattening it, rebuilding a tree from that event output through the
same grammar, and flattening again reproduces the first flattening:
the rebuild succeeds, its flattening equals the original's
(flatten(build(flatten(T))) == flatten(T)), and the rebuilt tree
matches the original in node names, type annotations, argument
sequences and property sets, with only the property order differing
(canonicalized to sorted order). -/
theorem c1_flatten_build_flatten (d : Document) (h : wfList d.Nodes = true) :
    ∃ d2 : Document, ParseDocument (flattenDoc d) = .ok d2 ∧
      flattenDoc d2 = flattenDoc d ∧
      List.Forall₂ NodeEquiv d2.Nodes d.Nodes := by
  refine ⟨⟨canonList d.Nodes⟩, ParseDocument_flattenDoc d h, ?_, ?_⟩
  · simp [flattenDoc, flattenNodes_canonList]
  · exact canonList_forall₂ d.Nodes (fun c hc => canon_equiv c (wfList_mem h c hc))

/-- Witness for C1: a two-level document whose top node has arguments,
two properties stored out of sorted order, and a child. -/
theorem c1_flatten_build_flatten_witness :
    wfList (Document.Nodes ⟨[Node.mk "host" none [Value.str none "example1"]
        [("b", Value.integer none 2), ("a", Value.integer none 1)] ["b", "a"]
        [Node.mk "user" none [Value.str none "root"] [] [] [] false] false]⟩) = true ∧
    (∃ d2 : Document,
      ParseDocument (flattenDoc ⟨[Node.mk "host" none [Value.str none "example1"]
          [("b", Value.integer none 2), ("a", Value.integer none 1)] ["b", "a"]
          [Node.mk "user" none [Value.str none "root"] [] [] [] false] false]⟩) = .ok d2 ∧
      flattenDoc d2 = flattenDoc ⟨[Node.mk "host" none [Value.str none "example1"]
          [("b", Value.integer none 2), ("a", Value.integer none 1)] ["b", "a"]
          [Node.mk "user" none [Value.str none "root"] [] [] [] false] false]⟩ ∧
      List.Forall₂ NodeEquiv d2.Nodes
        (Document.Nodes ⟨[Node.mk "host" none [Value.str none "example1"]
          [("b", Value.integer none 2), ("a", Value.integer none 1)] ["b", "a"]
          [Node.mk "user" none [Value.str none "root"] [] [] [] false] false]⟩)) :=
  ⟨by simp [wfB, wfList, nodupB, mapLookup],
   c1_flatten_build_flatten
     ⟨[Node.mk "host" none [Value.str none "example1"]
        [("b", Value.integer none 2), ("a", Value.integer none 1)] ["b", "a"]
        [Node.mk "user" none [Value.str none "root"] [] [] [] false] false]⟩
     (by simp [wfB, wfList, nodupB, mapLookup])⟩

end Kdl
